import Mathlib

/-!
Verification of the `ploys/deployments` deployment-orchestration bot.

The development shallowly embeds the TypeScript sources:
  * the configuration model (`packages/config/src`): trigger matching,
    stage/action validation and the `cycles` dependency-graph detector;
  * the lifecycle orchestrator (`packages/core/src/repository.ts`, newest
    revision): the `deploy`, `request`, `rerequest` and `completed` event
    handlers together with the reference-based lock manager
    (`lock`/`unlock`/`ensure`) and their collaborators
    (`check.ts`, `status.ts`, `deployment.ts`, `workflow.ts`, `config.ts`).

External collaborators (GitHub REST, YAML decoding, Joi schema plumbing) are
modelled as explicit state: a `World` record holds the git references (locks),
check suites, check runs, deployments and workflow runs that the handlers read
and mutate, and each handler is a pure function from a `World` to a `World`
plus a trace of externally visible status effects.
-/

set_option maxHeartbeats 1000000

namespace Ploys

/-! ## Configuration data model (`packages/config/src`) -/

/-- A trigger filter, `Trigger = { branches?: string[] }` in `trigger.ts`. -/
structure Trigger where
  branches : Option (List String) := none
deriving DecidableEq

/-- The `Triggers` union from `trigger.ts`: a single trigger name, a list of
trigger names, or a map from trigger name to a nullable filter. -/
inductive Triggers where
  | str (s : String)
  | arr (l : List String)
  | map (m : List (String × Option Trigger))
deriving DecidableEq

/-- A `needs`/`runs` value: a single stage id or a list of stage ids. -/
inductive OneOrMany where
  | one (s : String)
  | many (l : List String)
deriving DecidableEq

/-- An action, `action.ts`. -/
structure ActionCfg where
  name : String
  description : Option String := none
  runs : OneOrMany
deriving DecidableEq

/-- A stage, `stage.ts`.  Mappings are association lists with the key order of
the underlying JavaScript object. -/
structure StageCfg where
  name : Option String := none
  description : Option String := none
  needs : Option OneOrMany := none
  actions : List (String × ActionCfg) := []
deriving DecidableEq

/-- Validated configuration data, `ConfigData` in `index.ts`. -/
structure Config where
  id : String
  name : String
  description : String
  url : Option String := none
  triggers : Triggers
  stages : List (String × StageCfg)
deriving DecidableEq

/-- `util.array` from `packages/config/src/util.ts`:
`[input || []].flat()`.  An absent value and the (falsy) empty string give
`[]`; a single string gives a singleton; an array stays as is. -/
def arrayOf : Option OneOrMany → List String
  | none => []
  | some (.one s) => if s == "" then [] else [s]
  | some (.many l) => l

/-- JavaScript truthiness of the `needs` field, as used by
`if (!stage.needs)` in `repository.ts`: absent and `''` are falsy, every
array (even the empty one) is truthy. -/
def needsFalsy : Option OneOrMany → Bool
  | none => true
  | some (.one s) => s == ""
  | some (.many _) => false

/-- `Config.matches` from `packages/config/src/index.ts` (lines 124-142).
The source tests `Array.isArray` first, then `typeof === 'string'`, then
falls through to the map form; for the map form it returns `false` exactly
when the key is absent (`undefined`) or when a `branches` filter is present
that does not contain the branch. -/
def Config.matches (c : Config) (trigger branch : String) : Bool :=
  match c.triggers with
  | .arr l => l.contains trigger
  | .str s => s == trigger
  | .map m =>
    match m.lookup trigger with
    | none => false
    | some none => true
    | some (some t) =>
      match t.branches with
      | none => true
      | some bs => bs.contains branch

/-! ## Configuration listing (`packages/config/src/index.ts`, lines 186-208)

`Config.list` walks a directory listing, loads every `*.yml`/`*.yaml` file
independently and collects the outcomes in one JavaScript object: a failing
file is keyed by `basename(path, extname(path)).replace(/[\W_-]+/g, '-')`,
a successful one by the parsed configuration's `id`.  YAML decoding and Joi
validation happen inside `Config.load`, an external collaborator here, so a
directory entry carries its load outcome. -/

/-- A character that survives `replace(/[\W_-]+/g, '-')`: `\W` together with
the explicit `_` and `-` covers everything except ASCII alphanumerics. -/
def isSlugChar (c : Char) : Bool :=
  (decide ('a' ≤ c) && decide (c ≤ 'z')) ||
    (decide ('A' ≤ c) && decide (c ≤ 'Z')) ||
    (decide ('0' ≤ c) && decide (c ≤ '9'))

/-- Global replacement of `[\W_-]+` runs by a single hyphen; the flag records
whether the scan is inside a run whose hyphen has been emitted. -/
def slugGo : Bool → List Char → List Char
  | _, [] => []
  | inRun, c :: rest =>
    if isSlugChar c then c :: slugGo false rest
    else if inRun then slugGo true rest
    else '-' :: slugGo true rest

/-- The final path component, as `path.basename`. -/
def baseChars : List Char → List Char → List Char
  | acc, [] => acc
  | acc, c :: rest =>
    if c = '/' then baseChars [] rest else baseChars (acc ++ [c]) rest

/-- The suffix starting at the last `.` of the list, or `[]`. -/
def lastDotSuffix : List Char → List Char
  | [] => []
  | c :: rest =>
    match lastDotSuffix rest with
    | [] => if c = '.' then c :: rest else []
    | t => t

/-- `path.extname`: the suffix from the last dot of the basename, ignoring a
dot in leading position (`.yml` has no extension). -/
def extChars : List Char → List Char
  | [] => []
  | _ :: rest => lastDotSuffix rest

/-- `path.basename(p, ext)`: strip `ext` when it is a proper suffix. -/
def stripExt (base ext : List Char) : List Char :=
  if ext.isEmpty then base
  else if decide (ext.length < base.length) &&
      (base.drop (base.length - ext.length) == ext) then
    base.take (base.length - ext.length)
  else base

/-- `basename(path, extname(path)).replace(/[\W_-]+/g, '-')`, the
filename-derived id used for failing files and for defaults. -/
def fileIdOf (path : String) : String :=
  let base := baseChars [] path.toList
  ⟨slugGo false (stripExt base (extChars base))⟩

/-- `String.prototype.endsWith`. -/
def endsWithStr (s suffix : String) : Bool :=
  let ls := s.toList
  let lx := suffix.toList
  decide (lx.length ≤ ls.length) && (ls.drop (ls.length - lx.length) == lx)

/-- One directory entry together with the outcome of `Config.load` on it. -/
structure RepoFile where
  name : String
  path : String
  ftype : String
  loaded : Except String Config

/-- Property assignment on a JavaScript object viewed as an ordered
association list: an existing key keeps its position and gets the new value,
a new key is appended. -/
def insertJS {α : Type} (items : List (String × α)) (k : String) (v : α) :
    List (String × α) :=
  match items.lookup k with
  | some _ => items.map (fun p => if p.1 == k then (k, v) else p)
  | none => items ++ [(k, v)]

/-- Whether a load outcome is the error case. -/
def isErrE : Except String Config → Bool
  | .error _ => true
  | .ok _ => false

/-- The key under which a file's outcome is stored. -/
def derivedKey (f : RepoFile) : String :=
  match f.loaded with
  | .error _ => fileIdOf f.path
  | .ok cfg => cfg.id

/-- The `file.type === 'file' && (.yml || .yaml)` guard of the listing loop. -/
def eligibleFile (f : RepoFile) : Bool :=
  f.ftype == "file" && (endsWithStr f.name ".yml" || endsWithStr f.name ".yaml")

/-- One iteration of the `Config.list` loop. -/
def configStep (items : List (String × Except String Config)) (file : RepoFile) :
    List (String × Except String Config) :=
  if eligibleFile file then
    match file.loaded with
    | .error err => insertJS items (fileIdOf file.path) (.error err)
    | .ok cfg => insertJS items cfg.id (.ok cfg)
  else items

/-- `Config.list`: fold the directory entries in order, skipping non-files
and non-YAML names, and store each load outcome under its derived key. -/
def configList (files : List RepoFile) : List (String × Except String Config) :=
  files.foldl configStep []

/-! ## Cycle detection (`packages/config/src/util.ts`, lines 40-67)

`cycles(graph, start)` runs a depth-first search from `start`.  At each node
it scans the adjacency list in order; the first edge already on the current
path stops the scan (`break`), recording the path only when its last node is
the root.  The JavaScript recursion terminates because the path never repeats
a node; the embedding makes that bound explicit through a fuel parameter that
is consumed once per path extension.  `cyclesFuel_stable` below shows that the
chosen fuel is already in the stable regime, so the fuel is a termination
device, not a semantic change. -/

/-- Adjacency lookup `graph[edge]`, totalised with `[]` for absent keys.
In the source an absent key makes the recursion crash with a `TypeError`
(`for (const edge of undefined)`), which Joi turns into a rejection; the two
agree exactly on closed graphs (`closedGraph` below), and the affirmative
statements proved here are restricted to that regime — for the negative
statements (rejection, soundness of reported paths) a crash only adds
rejections, so the totalisation cannot flip them. -/
def lookupD (g : List (String × List String)) (k : String) : List String :=
  (g.lookup k).getD []

/-- A closed graph: every declared edge target is itself a key of the
adjacency list, so `lookupD` coincides with the JavaScript `graph[edge]`
lookup on everything the walk can reach. -/
def closedGraph (g : List (String × List String)) : Bool :=
  g.all (fun p => p.2.all (fun y => (g.lookup y).isSome))

/-- `[root, ...visited].join(' -> ')`. -/
def renderCycle (root : String) (visited : List String) : String :=
  String.intercalate " -> " (root :: visited)

/-- The `for` loop of the inner `detect` function: scan the adjacency list in
order; on the first edge already on the path, record the path when its last
node is the root and stop (`break`); otherwise descend (`descend` is `detect`
at one unit less fuel) and continue the scan. -/
def detectScan (g : List (String × List String)) (root : String)
    (descend : List String → List String → List String) :
    List String → List String → List String
  | [], _ => []
  | e :: rest, visited =>
    if visited.contains e then
      if visited.getLast? = some root then [renderCycle root visited] else []
    else
      descend (lookupD g e) (visited ++ [e]) ++
        detectScan g root descend rest visited

/-- The inner `detect` function of `cycles`; fuel is consumed once per path
extension. -/
def detect (g : List (String × List String)) (root : String) :
    Nat → List String → List String → List String
  | 0 => fun _ _ => []
  | fuel + 1 => fun edges visited =>
      detectScan g root (detect g root fuel) edges visited

/-- Fuel that always suffices: one more than the number of distinct
appendable nodes (every node ever appended to the path is some edge target). -/
def graphFuel (g : List (String × List String)) : Nat :=
  ((g.map Prod.snd).flatten.dedup).length + 1

/-- `cycles(graph, start)` from `util.ts`. -/
def cycles (g : List (String × List String)) (start : String) : List String :=
  detect g start (graphFuel g) (lookupD g start) []

/-! ## Stage and action validation (`schema.ts`, `need`/`run`/`needs`/`runs`) -/

/-- Key membership in a stages object. -/
def hasStage (stages : List (String × StageCfg)) (k : String) : Bool :=
  stages.any (fun p => p.1 == k)

/-- The `needs` adjacency map built inside the `need` validator:
`edges[key] = util.array(item.needs)` over all declared stages. -/
def needsGraph (stages : List (String × StageCfg)) : List (String × List String) :=
  stages.map (fun p => (p.1, arrayOf p.2.needs))

/-- Truth of an `Except`-valued check. -/
def okB : Except String Unit → Bool
  | .ok _ => true
  | .error _ => false

/-- The custom `need` rule (`schema.ts`, lines 203-233): reject a self
reference, reject an undeclared stage, then reject when `cycles` finds a
cycle rooted at the referenced stage. -/
def needCheck (stages : List (String × StageCfg)) (child value : String) :
    Except String Unit :=
  if value == child then .error "it cannot reference own stage"
  else if !(hasStage stages value) then .error "it must reference another stage"
  else
    let cs := cycles (needsGraph stages) value
    if cs.length > 0 then
      .error ("detected cycles: \n" ++ String.intercalate "\n" cs)
    else .ok ()

/-- The custom `run` rule (`schema.ts`, lines 176-185): the referenced stage
must be declared; self references are not excluded. -/
def runCheck (stages : List (String × StageCfg)) (value : String) :
    Except String Unit :=
  if hasStage stages value then .ok () else .error "it must reference a valid stage"

/-- `Joi.array().unique()`: no duplicate entries. -/
def pairwiseDistinct (l : List String) : Bool :=
  l == l.dedup

/-- A character allowed by the id pattern `[a-zA-Z0-9-]`. -/
def isIdChar (c : Char) : Bool :=
  isSlugChar c || c == '-'

/-- The id schema `^[a-zA-Z0-9-]\x7b2,30\x7d$` (also applied to stage
keys by the `stages` pattern schema). -/
def isIdStr (s : String) : Bool :=
  decide (2 ≤ s.length) && decide (s.length ≤ 30) && s.toList.all isIdChar

/-- The `needs` alternatives (`schema.ts`, line 192-194): a single `need` or a
duplicate-free array of `need`s. -/
def checkNeeds (stages : List (String × StageCfg)) (child : String) :
    Option OneOrMany → Bool
  | none => true
  | some (.one s) => okB (needCheck stages child s)
  | some (.many l) =>
      pairwiseDistinct l && l.all (fun s => okB (needCheck stages child s))

/-- The `runs` alternatives (`schema.ts`, line 165-167). -/
def checkRuns (stages : List (String × StageCfg)) : OneOrMany → Bool
  | .one s => okB (runCheck stages s)
  | .many l => pairwiseDistinct l && l.all (fun s => okB (runCheck stages s))

/-- The graph-related part of stage validation: every stage's `needs` values
pass `need` and every action's `runs` values pass `run`.  The schema rejects
a configuration exactly when one of these custom rules (or a structural rule
outside this model) fails. -/
def stagesCheck (stages : List (String × StageCfg)) : Bool :=
  stages.all (fun p =>
    checkNeeds stages p.1 p.2.needs &&
      p.2.actions.all (fun a => checkRuns stages a.2.runs))

/-! ## The lock manager (`repository.ts`, lines 1299-1395)

The lock is a git reference `deployments/<env>` pinned to one commit SHA.
The reference store is an association list from reference name to SHA. -/

/-- The external git reference store (only the `deployments/*` branches are
relevant to the orchestrator). -/
abbrev Refs := List (String × String)

/-- `deployment.reference` from `deployment.ts`. -/
def reference (env : String) : String :=
  "deployments/" ++ env

/-- `git.getRef`: the SHA a reference points at, if it exists. -/
def getRef (refs : Refs) (ref : String) : Option String :=
  refs.lookup ref

/-- `git.createRef`: fails (returns `none`) when the reference already
exists; it never overwrites. -/
def createRef (refs : Refs) (ref sha : String) : Option Refs :=
  match refs.lookup ref with
  | some _ => none
  | none => some ((ref, sha) :: refs)

/-- `git.deleteRef`: fails when the reference is absent. -/
def deleteRef (refs : Refs) (ref : String) : Option Refs :=
  match refs.lookup ref with
  | some _ => some (refs.eraseP (fun p => p.1 == ref))
  | none => none

/-- `Repository.lock` (`repository.ts`, lines 1315-1326): attempt to create
the branch; any failure is reported as a lock-acquisition error. -/
def lockRepo (refs : Refs) (env sha : String) : Except String Refs :=
  match createRef refs (reference env) sha with
  | some r => .ok r
  | none => .error ("Failed to acquire lock for " ++ env ++ " at " ++ sha)

/-- `Repository.unlock` (`repository.ts`, lines 1334-1345). -/
def unlockRepo (refs : Refs) (env : String) : Except String Refs :=
  match deleteRef refs (reference env) with
  | some r => .ok r
  | none => .error ("Failed to release lock for " ++ env)

/-- `Repository.ensure` (`repository.ts`, lines 1375-1395): attempt `lock`
first; on failure read the existing reference and require its target to
equal `sha`.  (The read in the fallback cannot fail in the sequential model:
`lock` only fails when the reference exists.) -/
def ensureRepo (refs : Refs) (env sha : String) : Except String Refs :=
  match lockRepo refs env sha with
  | .ok r => .ok r
  | .error _ =>
    match getRef refs (reference env) with
    | none => .error ("Reference not found for " ++ reference env)
    | some cur =>
      if cur == sha then .ok refs
      else .error ("Failed to ensure lock for " ++ env ++ " at " ++ sha)

/-! ## The lifecycle orchestrator (`packages/core/src/repository.ts`)

The orchestrator's collaborators are pure state here: a `World` holds the git
references (locks), the check suites created for this app, the check runs,
deployments and workflow runs (all newest-first, as the list endpoints return
them), the `config.list` outcome at the event's commit, the artifact listing
per workflow run, and the `workflow.exists` probe.  Each handler maps a
`World` to a `World`, a trace of status effects, and an optional uncaught
error.  The embedding follows the newest revision of `repository.ts`
(`deploy` lines 697-816, `request` 826-948, `rerequest` 957-1066,
`completed` 1122-1225). -/

/-- A check run (`check.ts`); `check.create` uses the environment id as both
`name` and `external_id`. -/
structure CheckRun where
  id : Nat
  name : String
  head_sha : String
  status : String
  conclusion : Option String
deriving DecidableEq

/-- A stored artifact reference (`{id, url}` in the deployment payload). -/
structure ArtifactRef where
  id : Nat
  url : String
deriving DecidableEq

/-- The deployment payload.  `repository.ts` stores and reads
`check_run_id`, `stages`, `completed_stages` and `artifacts`; the snapshot's
`deployment.ts` predates the `artifacts` field, which follows the spec
payload `\x7bcheckRunId, stages, completedStages, artifacts\x7d` and the
arguments the orchestrator passes to `deployment.create`. -/
structure DepPayload where
  check_run_id : Nat
  stages : List String
  completed_stages : List String
  artifacts : List (String × ArtifactRef)
deriving DecidableEq

/-- A deployment resource; `sha` is the commit of the `deployments/<env>`
reference at creation time, which is how `listDeployments` filters. -/
structure Deployment where
  id : Nat
  environment : String
  sha : String
  task : String
  payload : DepPayload
deriving DecidableEq

/-- A workflow run on the `deployments/<env>` branch. -/
structure WorkflowRun where
  id : Nat
  head_sha : String
  head_branch : String
  status : String
  conclusion : Option String
  check_suite_url : String
deriving DecidableEq

/-- An offered check-run action (the `Action` type of `repository.ts`). -/
structure ActionItem where
  identifier : String
  label : String
  description : String
deriving DecidableEq

/-- Externally visible status operations performed by the handlers. -/
inductive Effect where
  | createdSuite (sha : String)
  | createdRun (id : Nat) (env sha : String)
  | statusMissing (env : String) (run : Nat)
  | statusInvalid (env : String) (run : Nat) (msg : String)
  | statusReady (env : String) (run : Nat)
  | statusQueued (env : String) (run : Nat) (dep : Nat)
  | statusStarted (env : String) (run : Nat) (dep : Nat)
  | statusSuccess (env : String) (run : Nat) (dep : Nat) (url : Option String)
  | statusFailure (env : String) (run : Nat) (dep : Nat)
  | statusIncomplete (env : String) (run : Nat) (dep : Nat)
      (actions : List ActionItem)
  | removedDeployment (dep : Nat)
deriving DecidableEq

instance : DecidableEq (Except String Config) := fun x y =>
  match x, y with
  | .error a, .error b =>
    if h : a = b then isTrue (by rw [h]) else isFalse (by simp [h])
  | .ok a, .ok b =>
    if h : a = b then isTrue (by rw [h]) else isFalse (by simp [h])
  | .error _, .ok _ => isFalse (by simp)
  | .ok _, .error _ => isFalse (by simp)

/-- The external state read and mutated by the orchestrator. -/
structure World where
  refs : Refs
  suites : List String
  runs : List CheckRun
  deployments : List Deployment
  workflows : List WorkflowRun
  configs : List (String × Except String Config)
  artifactsOf : List (Nat × List (String × ArtifactRef))
  workflowExists : Bool
  nextId : Nat
deriving DecidableEq

/-- A handler outcome: the final state, the status-effect trace, and an
uncaught error if one propagated. -/
structure HandlerResult where
  world : World
  fx : List Effect
  err : Option String
deriving DecidableEq

/-- `check.create`: a fresh check run in `queued` status. -/
def checkCreate (w : World) (sha env : String) : World × CheckRun :=
  let r : CheckRun :=
    { id := w.nextId, name := env, head_sha := sha, status := "queued",
      conclusion := none }
  ({ w with runs := r :: w.runs, nextId := w.nextId + 1 }, r)

/-- `checks.update` with a status only (conclusion untouched). -/
def setRunStatus (w : World) (id : Nat) (st : String) : World :=
  { w with
    runs := w.runs.map fun r =>
      if r.id == id then { r with status := st } else r }

/-- `checks.update` with a terminal status and conclusion. -/
def setRunDone (w : World) (id : Nat) (st con : String) : World :=
  { w with
    runs := w.runs.map fun r =>
      if r.id == id then { r with status := st, conclusion := some con }
      else r }

/-- `check.get`: look a check run up by id. -/
def findRun (w : World) (id : Nat) : Option CheckRun :=
  w.runs.find? (fun r => r.id == id)

/-- `check.find`: the latest check run named after the environment at the
commit. -/
def findLatestRun (w : World) (sha env : String) : Option CheckRun :=
  w.runs.find? (fun r => r.head_sha == sha && r.name == env)

/-- `deployment.list`: deployments filtered by commit and environment. -/
def depList (w : World) (sha env : String) : List Deployment :=
  w.deployments.filter (fun d => d.environment == env && d.sha == sha)

/-- `deployment.get` without a check-run filter (latest first). -/
def depGet (w : World) (sha env : String) : Option Deployment :=
  (depList w sha env).head?

/-- `deployment.get` with the check-run filter. -/
def depGetRun (w : World) (sha env : String) (run : Nat) : Option Deployment :=
  ((depList w sha env).filter (fun d => d.payload.check_run_id == run)).head?

/-- `workflow.get`: the latest workflow run for the deployment branch at the
commit. -/
def wfGet (w : World) (sha env : String) : Option WorkflowRun :=
  w.workflows.find?
    (fun r => r.head_sha == sha && r.head_branch == reference env)

/-- `config.get` (`core/src/config.ts`): scan the listing for the
environment's entry; a stored error is rethrown, a missing entry is an
error. -/
def configGetGo (env sha : String) :
    List (String × Except String Config) → Except String Config
  | [] => .error ("Unable to get config for " ++ env ++ " at " ++ sha)
  | (key, entry) :: rest =>
    if key == env then entry else configGetGo env sha rest

/-- `config.get` against the event's listing. -/
def configGet (w : World) (sha env : String) : Except String Config :=
  configGetGo env sha w.configs

/-- `listWorkflowRunArtifacts`. -/
def artifactsOfRun (w : World) (runId : Nat) : List (String × ArtifactRef) :=
  (w.artifactsOf.lookup runId).getD []

/-- `createDeployment` with `ref = deployments/<env>`: resolves the
reference (failing when it is absent) and records the payload. -/
def deploymentCreate (w : World) (env : String) (runId : Nat) (task : String)
    (stages completed : List String)
    (artifacts : List (String × ArtifactRef)) : Option (World × Deployment) :=
  match getRef w.refs (reference env) with
  | none => none
  | some sha =>
    let d : Deployment :=
      { id := w.nextId, environment := env, sha := sha, task := task,
        payload :=
          { check_run_id := runId, stages := stages,
            completed_stages := completed, artifacts := artifacts } }
    some ({ w with deployments := d :: w.deployments, nextId := w.nextId + 1 }, d)

/-- `deployment.remove`: mark inactive and delete. -/
def deploymentRemove (w : World) (dep : Nat) : World :=
  { w with deployments := w.deployments.filter (fun d => !(d.id == dep)) }

/-- `util.unique`: `Array.from(new Set(input))` keeps first occurrences. -/
def uniqueGo (seen : List String) : List String → List String
  | [] => []
  | x :: rest =>
    if seen.contains x then uniqueGo seen rest
    else x :: uniqueGo (seen ++ [x]) rest

/-- `util.unique`. -/
def uniqueJS (l : List String) : List String :=
  uniqueGo [] l

/-- The entry-stage computation used by all fresh starts:
`if (!stage.needs) include.push(key)`. -/
def entryStages (cfg : Config) : List String :=
  (cfg.stages.filter (fun p => needsFalsy p.2.needs)).map Prod.fst

/-- The `runs` union of the requested action over the unit's current stages
(`request`, lines 883-892). -/
def collectRuns (cfg : Config) (curStages : List String) (action : String) :
    List String :=
  cfg.stages.foldl
    (fun acc p =>
      if curStages.contains p.1 then
        match p.2.actions.lookup action with
        | some act => acc ++ arrayOf (some act.runs)
        | none => acc
      else acc) []

/-- Artifact merge: spread the previous artifacts, then overwrite by name
(`request`, lines 899-918). -/
def mergeArtifacts (base items : List (String × ArtifactRef)) :
    List (String × ArtifactRef) :=
  items.foldl (fun acc it => insertJS acc it.1 it.2) base

/-- The next-action collection of `completed` (lines 1167-1191): the actions
of the unit's current stages, deduplicated by identifier keeping the
first-declared one; `action.description || key` falls back on the identifier
for an absent or empty description. -/
def collectActions (cfg : Config) (depStages : List String) : List ActionItem :=
  (depStages.foldl
    (fun acc stage =>
      match cfg.stages.lookup stage with
      | some st =>
        st.actions.foldl
          (fun acc2 pa =>
            if (acc2.lookup pa.1).isSome then acc2
            else
              acc2 ++ [(pa.1, ActionItem.mk pa.1 pa.2.name
                (match pa.2.description with
                  | some d => if d == "" then pa.1 else d
                  | none => pa.1))])
          acc
      | none => acc)
    ([] : List (String × ActionItem))).map Prod.snd

/-- `startsWith` on character lists. -/
def startsWithL : List Char → List Char → Bool
  | [], _ => true
  | _ :: _, [] => false
  | a :: as, b :: bs => a == b && startsWithL as bs

/-- `String.prototype.includes` on character lists. -/
def segIn (needle : List Char) : List Char → Bool
  | [] => needle.isEmpty
  | c :: rest => startsWithL needle (c :: rest) || segIn needle rest

/-- `run.check_suite_url.includes(suite.toString())`. -/
def suiteMatches (run : WorkflowRun) (suite : Nat) : Bool :=
  segIn (toString suite).toList run.check_suite_url.toList

/-- The `once`-wrapped check-suite creation of `deploy`. -/
def onceSuite (w : World) (fx : List Effect) (done : Bool) (sha : String) :
    World × List Effect × Bool :=
  if done then (w, fx, true)
  else ({ w with suites := sha :: w.suites }, fx ++ [.createdSuite sha], true)

/-- The per-environment loop of `deploy` (lines 727-815). -/
def deployLoop (sha branch trigger : String) (wfExists : Bool) :
    World → List Effect → Bool → List (String × Except String Config) →
      HandlerResult
  | w, fx, _, [] => ⟨w, fx, none⟩
  | w, fx, suiteDone, (env, entry) :: rest =>
    if !wfExists then
      let s := onceSuite w fx suiteDone sha
      let c := checkCreate s.1 sha env
      deployLoop sha branch trigger wfExists
        (setRunDone c.1 c.2.id "completed" "failure")
        (s.2.1 ++ [.createdRun c.2.id env sha, .statusMissing env c.2.id])
        s.2.2 rest
    else
      match entry with
      | .error err =>
        let s := onceSuite w fx suiteDone sha
        let c := checkCreate s.1 sha env
        deployLoop sha branch trigger wfExists
          (setRunDone c.1 c.2.id "completed" "failure")
          (s.2.1 ++ [.createdRun c.2.id env sha,
            .statusInvalid env c.2.id err])
          s.2.2 rest
      | .ok cfg =>
        if cfg.matches trigger branch then
          let s := onceSuite w fx suiteDone sha
          let c := checkCreate s.1 sha env
          let fx1 := s.2.1 ++ [.createdRun c.2.id env sha]
          match lockRepo c.1.refs env sha with
          | .error _ =>
            deployLoop sha branch trigger wfExists
              (setRunDone c.1 c.2.id "completed" "neutral")
              (fx1 ++ [.statusReady env c.2.id]) s.2.2 rest
          | .ok refs2 =>
            match deploymentCreate { c.1 with refs := refs2 } env c.2.id
              "deploy" (entryStages cfg) [] [] with
            | none => ⟨c.1, fx1, some "Reference does not exist"⟩
            | some (w2, dep) =>
              deployLoop sha branch trigger wfExists
                (setRunStatus w2 c.2.id "queued")
                (fx1 ++ [.statusQueued env c.2.id dep.id]) s.2.2 rest
        else if cfg.matches "manual" branch && trigger == "push" then
          let s := onceSuite w fx suiteDone sha
          let c := checkCreate s.1 sha env
          deployLoop sha branch trigger wfExists
            (setRunDone c.1 c.2.id "completed" "neutral")
            (s.2.1 ++ [.createdRun c.2.id env sha, .statusReady env c.2.id])
            s.2.2 rest
        else
          deployLoop sha branch trigger wfExists w fx suiteDone rest

/-- `Repository.deploy` (lines 697-816). -/
def deployHandler (w : World) (sha branch trigger : String) : HandlerResult :=
  if w.suites.contains sha then ⟨w, [], none⟩
  else deployLoop sha branch trigger w.workflowExists w [] false w.configs

/-- The tail of `Repository.request` after the lock step (lines 856-947). -/
def requestCont (w : World) (sha env : String) (run : Nat) (action : String)
    (cur? : Option Deployment) : HandlerResult :=
  match findLatestRun w sha env with
  | none => ⟨w, [], none⟩
  | some found =>
    if !(found.id == run) then ⟨w, [], none⟩
    else
      let c := checkCreate w sha env
      let fx1 : List Effect := [.createdRun c.2.id env sha]
      match configGet c.1 sha env with
      | .error msg =>
        ⟨setRunDone c.1 c.2.id "completed" "failure",
          fx1 ++ [.statusInvalid env c.2.id msg], none⟩
      | .ok cfg =>
        match cur? with
        | some cur =>
          let complete := cur.payload.completed_stages ++ cur.payload.stages
          let uniq := uniqueJS (collectRuns cfg cur.payload.stages action)
          match wfGet c.1 sha env with
          | none =>
            ⟨c.1, fx1, some ("No matching workflow run for " ++ env ++
              " at " ++ sha)⟩
          | some flow =>
            let artifacts := mergeArtifacts cur.payload.artifacts
              (artifactsOfRun c.1 flow.id)
            match deploymentCreate c.1 env c.2.id ("deploy:" ++ action) uniq
              complete artifacts with
            | none => ⟨c.1, fx1, some "Reference does not exist"⟩
            | some (w2, dep) =>
              ⟨deploymentRemove (setRunStatus w2 c.2.id "queued") cur.id,
                fx1 ++ [.statusQueued env c.2.id dep.id,
                  .removedDeployment cur.id], none⟩
        | none =>
          match deploymentCreate c.1 env c.2.id "deploy" (entryStages cfg)
            [] [] with
          | none => ⟨c.1, fx1, some "Reference does not exist"⟩
          | some (w2, dep) =>
            ⟨setRunStatus w2 c.2.id "queued",
              fx1 ++ [.statusQueued env c.2.id dep.id], none⟩

/-- `Repository.request` (lines 826-948): a fresh request locks, a
between-stages request verifies the lock; both drop the event silently on a
lock conflict. -/
def requestHandler (w : World) (sha env : String) (run : Nat)
    (action : String) : HandlerResult :=
  match depGetRun w sha env run with
  | none =>
    match lockRepo w.refs env sha with
    | .error _ => ⟨w, [], none⟩
    | .ok refs2 => requestCont { w with refs := refs2 } sha env run action none
  | some cur =>
    match ensureRepo w.refs env sha with
    | .error _ => ⟨w, [], none⟩
    | .ok refs2 =>
      requestCont { w with refs := refs2 } sha env run action (some cur)

/-- The tail of `Repository.rerequest` after the lock step (lines
987-1065). -/
def rerequestCont (w : World) (sha env : String) (last : Nat)
    (cur? : Option Deployment) : HandlerResult :=
  match findRun w last with
  | none => ⟨w, [], some "Not Found"⟩
  | some chk =>
    if !(chk.status == "completed" && chk.conclusion == some "failure") then
      ⟨w, [], none⟩
    else if !w.workflowExists then
      let c := checkCreate w sha env
      ⟨setRunDone c.1 c.2.id "completed" "failure",
        [.createdRun c.2.id env sha, .statusMissing env c.2.id], none⟩
    else
      match configGet w sha env with
      | .error msg =>
        let c := checkCreate w sha env
        ⟨setRunDone c.1 c.2.id "completed" "failure",
          [.createdRun c.2.id env sha, .statusInvalid env c.2.id msg], none⟩
      | .ok cfg =>
        match cur? with
        | some cur =>
          let c := checkCreate w sha env
          match deploymentCreate c.1 env c.2.id cur.task cur.payload.stages
            cur.payload.completed_stages cur.payload.artifacts with
          | none => ⟨c.1, [.createdRun c.2.id env sha],
              some "Reference does not exist"⟩
          | some (w2, dep) =>
            ⟨deploymentRemove (setRunStatus w2 c.2.id "queued") cur.id,
              [.createdRun c.2.id env sha, .statusQueued env c.2.id dep.id,
                .removedDeployment cur.id], none⟩
        | none =>
          let c := checkCreate w sha env
          match deploymentCreate c.1 env c.2.id "deploy" (entryStages cfg)
            [] [] with
          | none => ⟨c.1, [.createdRun c.2.id env sha],
              some "Reference does not exist"⟩
          | some (w2, dep) =>
            ⟨setRunStatus w2 c.2.id "queued",
              [.createdRun c.2.id env sha, .statusQueued env c.2.id dep.id],
              none⟩

/-- `Repository.rerequest` (lines 957-1066). -/
def rerequestHandler (w : World) (sha env : String) (last : Nat) :
    HandlerResult :=
  match depGetRun w sha env last with
  | none =>
    match lockRepo w.refs env sha with
    | .error _ => ⟨w, [], none⟩
    | .ok refs2 => rerequestCont { w with refs := refs2 } sha env last none
  | some cur =>
    match ensureRepo w.refs env sha with
    | .error _ => ⟨w, [], none⟩
    | .ok refs2 =>
      rerequestCont { w with refs := refs2 } sha env last (some cur)

/-- `Repository.completed` (lines 1122-1225). -/
def completedHandler (w : World) (sha env : String) (suite : Nat) :
    HandlerResult :=
  match ensureRepo w.refs env sha with
  | .error msg => ⟨w, [], some msg⟩
  | .ok refs2 =>
    let w1 := { w with refs := refs2 }
    match wfGet w1 sha env with
    | none =>
      ⟨w1, [], some ("No matching workflow run for " ++ env ++ " at " ++ sha)⟩
    | some run =>
      if !suiteMatches run suite then
        ⟨w1, [], some ("Invalid workflow run for " ++ env ++ " at " ++ sha)⟩
      else if !(run.status == "completed") then ⟨w1, [], none⟩
      else
        match depGet w1 sha env with
        | none =>
          ⟨w1, [], some ("No matching deployment for " ++ env ++ " at " ++ sha)⟩
        | some dep =>
          match findRun w1 dep.payload.check_run_id with
          | none => ⟨w1, [], some "Not Found"⟩
          | some chk =>
            if chk.status == "completed" then
              match unlockRepo w1.refs env with
              | .error msg => ⟨w1, [], some msg⟩
              | .ok refs3 => ⟨{ w1 with refs := refs3 }, [], none⟩
            else
              match run.conclusion with
              | some "success" =>
                match configGet w1 sha env with
                | .error _ =>
                  let w2 := setRunDone w1 chk.id "completed" "success"
                  match unlockRepo w2.refs env with
                  | .error msg =>
                    ⟨w2, [.statusSuccess env chk.id dep.id none], some msg⟩
                  | .ok refs3 =>
                    ⟨{ w2 with refs := refs3 },
                      [.statusSuccess env chk.id dep.id none], none⟩
                | .ok cfg =>
                  let items := collectActions cfg dep.payload.stages
                  if items.length > 0 then
                    ⟨setRunDone w1 chk.id "completed" "action_required",
                      [.statusIncomplete env chk.id dep.id items], none⟩
                  else
                    let w2 := setRunDone w1 chk.id "completed" "success"
                    match unlockRepo w2.refs env with
                    | .error msg =>
                      ⟨w2, [.statusSuccess env chk.id dep.id cfg.url],
                        some msg⟩
                    | .ok refs3 =>
                      ⟨{ w2 with refs := refs3 },
                        [.statusSuccess env chk.id dep.id cfg.url], none⟩
              | some "failure" =>
                let w2 := setRunDone w1 chk.id "completed" "failure"
                match unlockRepo w2.refs env with
                | .error msg =>
                  ⟨w2, [.statusFailure env chk.id dep.id], some msg⟩
                | .ok refs3 =>
                  ⟨{ w2 with refs := refs3 },
                    [.statusFailure env chk.id dep.id], none⟩
              | _ =>
                match unlockRepo w1.refs env with
                | .error msg => ⟨w1, [], some msg⟩
                | .ok refs3 => ⟨{ w1 with refs := refs3 }, [], none⟩

/-! ## Graph notions used in the statements about `cycles` -/

/-- The edge relation of an adjacency-list graph: `b` is a declared successor
of `a`. -/
def edgeRel (g : List (String × List String)) (a b : String) : Prop :=
  b ∈ lookupD g a

instance (g : List (String × List String)) (a b : String) :
    Decidable (edgeRel g a b) :=
  inferInstanceAs (Decidable (b ∈ lookupD g a))

/-- All edge targets of the graph (with multiplicity). -/
def targetsOf (g : List (String × List String)) : List String :=
  (g.map Prod.snd).flatten

/-- The last node of the nonempty path `a :: P`. -/
def lastNode (a : String) (P : List String) : String :=
  P.getLast?.getD a

/-- A simple cycle through `r`: a nonempty, duplicate-free chain of edges
that starts at a successor of `r` and ends back at `r`. -/
def SimpleCycleThrough (g : List (String × List String)) (r : String)
    (l : List String) : Prop :=
  l ≠ [] ∧ List.Chain (edgeRel g) r l ∧ l.getLast? = some r ∧ l.Nodup

instance (g : List (String × List String)) (r : String) (l : List String) :
    Decidable (SimpleCycleThrough g r l) :=
  inferInstanceAs (Decidable (l ≠ [] ∧ List.Chain (edgeRel g) r l ∧
    l.getLast? = some r ∧ l.Nodup))

/-- Acyclicity: no simple cycle through any node. -/
def Acyclic (g : List (String × List String)) : Prop :=
  ∀ v l, ¬ SimpleCycleThrough g v l

end Ploys

namespace Ploys

/-! ## Graph-theoretic facts about `cycles` -/

/-- No graph edge leaves the target list. -/
theorem lookupD_subset_targets (g : List (String × List String)) (a x : String)
    (hx : x ∈ lookupD g a) : x ∈ targetsOf g := by
  induction g with
  | nil => simp [lookupD, List.lookup] at hx
  | cons p g2 ih =>
    obtain ⟨k, vs⟩ := p
    by_cases hk : (a == k) = true
    · have he : lookupD ((k, vs) :: g2) a = vs := by
        simp [lookupD, List.lookup, hk]
      rw [he] at hx
      simp [targetsOf, hx]
    · rw [Bool.not_eq_true] at hk
      have he : lookupD ((k, vs) :: g2) a = lookupD g2 a := by
        simp [lookupD, List.lookup, hk]
      rw [he] at hx
      have := ih hx
      simp only [targetsOf, List.map_cons, List.flatten_cons, List.mem_append]
      exact Or.inr this

theorem lastNode_nil (a : String) : lastNode a [] = a := rfl

theorem lastNode_concat (a b : String) (P : List String) :
    lastNode a (P ++ [b]) = b := by
  simp [lastNode, List.getLast?_concat]

theorem lastNode_cons (a b : String) (P : List String) :
    lastNode a (b :: P) = lastNode b P := by
  cases P with
  | nil => rfl
  | cons c P2 =>
    have h : ((c :: P2).getLast?).isSome := by simp
    obtain ⟨y, hy⟩ := Option.isSome_iff_exists.mp h
    simp [lastNode, List.getLast?_cons_cons, hy]

theorem lastNode_append (a : String) (P Q : List String) :
    lastNode a (P ++ Q) = lastNode (lastNode a P) Q := by
  induction P generalizing a with
  | nil => simp [lastNode_nil]
  | cons p P2 ih => simp only [List.cons_append, lastNode_cons, ih]

/-- The closing edge of a chain that ends in `b`. -/
theorem chain_last_edge {R : String → String → Prop} :
    ∀ (P : List String) (a b : String), List.Chain R a (P ++ [b]) →
      R (lastNode a P) b := by
  intro P
  induction P with
  | nil =>
    intro a b h
    simpa [lastNode_nil, List.chain_singleton] using h
  | cons p P2 ih =>
    intro a b h
    rw [List.cons_append, List.chain_cons] at h
    simpa [lastNode_cons] using ih p b h.2

/-- A chain restricts to any prefix. -/
theorem chain_of_append_left {R : String → String → Prop} :
    ∀ (P : List String) (a : String) {Q : List String},
      List.Chain R a (P ++ Q) → List.Chain R a P := by
  intro P
  induction P with
  | nil => intro a Q _; exact List.Chain.nil
  | cons p P2 ih =>
    intro a Q h
    rw [List.cons_append, List.chain_cons] at h
    exact List.Chain.cons h.1 (ih p h.2)

/-- A chain restricts to any suffix, rooted at the last node of the prefix. -/
theorem chain_of_append_right {R : String → String → Prop} :
    ∀ (P : List String) (a : String) {Q : List String},
      List.Chain R a (P ++ Q) → List.Chain R (lastNode a P) Q := by
  intro P
  induction P with
  | nil => intro a Q h; simpa [lastNode_nil] using h
  | cons p P2 ih =>
    intro a Q h
    rw [List.cons_append, List.chain_cons] at h
    simpa [lastNode_cons] using ih p h.2

/-- Extending a chain by one closing edge. -/
theorem chain_snoc {R : String → String → Prop} :
    ∀ (P : List String) (a b : String), List.Chain R a P →
      R (lastNode a P) b → List.Chain R a (P ++ [b]) := by
  intro P
  induction P with
  | nil =>
    intro a b _ h
    simpa [List.chain_singleton] using h
  | cons p P2 ih =>
    intro a b h hr
    rw [List.chain_cons] at h
    rw [List.cons_append, List.chain_cons]
    exact ⟨h.1, ih p b h.2 (by simpa [lastNode_cons] using hr)⟩

/-- Every node of a chain is an edge target. -/
theorem chain_mem_targets (g : List (String × List String)) :
    ∀ (l : List String) (a : String), List.Chain (edgeRel g) a l →
      ∀ x ∈ l, x ∈ targetsOf g := by
  intro l
  induction l with
  | nil => intro a _ x hx; simp at hx
  | cons b l2 ih =>
    intro a h x hx
    rw [List.chain_cons] at h
    rcases List.mem_cons.mp hx with rfl | hx2
    · exact lookupD_subset_targets g a x h.1
    · exact ih b h.2 x hx2

/-- Soundness of `detect`: whatever the fuel, every reported string is the
rendering of a simple cycle through the root. -/
theorem detect_sound (g : List (String × List String)) (root : String) :
    ∀ (fuel : Nat) (edges visited : List String) (s : String),
      visited.Nodup → List.Chain (edgeRel g) root visited →
      (∀ e ∈ edges, edgeRel g (lastNode root visited) e) →
      s ∈ detect g root fuel edges visited →
      ∃ l, SimpleCycleThrough g root l ∧ s = renderCycle root l := by
  intro fuel
  induction fuel with
  | zero => intro edges visited s _ _ _ hs; simp [detect] at hs
  | succ f ih =>
    intro edges
    induction edges with
    | nil => intro visited s _ _ _ hs; simp [detect, detectScan] at hs
    | cons e rest ihe =>
      intro visited s hnd hch hedges hs
      simp only [detect, detectScan] at hs
      by_cases hc : visited.contains e
      · rw [if_pos hc] at hs
        by_cases hl : visited.getLast? = some root
        · rw [if_pos hl] at hs
          rcases List.mem_singleton.mp hs with rfl
          refine ⟨visited, ⟨?_, hch, hl, hnd⟩, rfl⟩
          intro hv
          rw [hv] at hl
          simp at hl
        · rw [if_neg hl] at hs
          simp at hs
      · rw [if_neg hc] at hs
        rcases List.mem_append.mp hs with hs1 | hs2
        · have hmem : e ∉ visited := by
            intro hv
            exact hc (by simpa using hv)
          refine ih (lookupD g e) (visited ++ [e]) s ?_ ?_ ?_ hs1
          · exact List.Nodup.append hnd (List.nodup_singleton e)
              (by intro x hx hx2; rcases List.mem_singleton.mp hx2 with rfl; exact hmem hx)
          · exact chain_snoc visited root e hch (hedges e (List.mem_cons_self e rest))
          · intro x hx
            rw [lastNode_concat]
            exact hx
        · exact ihe visited s hnd hch
            (fun x hx => hedges x (List.mem_cons_of_mem e hx)) hs2

/-- Soundness of `cycles`: every reported string is the rendering of a simple
cycle through the start node. -/
theorem cycles_sound (g : List (String × List String)) (start s : String)
    (hs : s ∈ cycles g start) :
    ∃ l, SimpleCycleThrough g start l ∧ s = renderCycle start l := by
  refine detect_sound g start (graphFuel g) (lookupD g start) [] s
    List.nodup_nil List.Chain.nil ?_ hs
  intro e he
  simpa [lastNode_nil, edgeRel] using he

/-- One extra unit of fuel does not change `detect` once the fuel covers the
remaining distinct appendable nodes. -/
theorem detect_fuel_succ (g : List (String × List String)) (root : String) :
    ∀ (fuel : Nat) (edges visited : List String),
      visited.Nodup → (∀ x ∈ visited, x ∈ targetsOf g) →
      (∀ x ∈ edges, x ∈ targetsOf g) →
      (targetsOf g).dedup.length + 1 ≤ fuel + visited.length →
      detect g root fuel edges visited = detect g root (fuel + 1) edges visited := by
  intro fuel
  induction fuel with
  | zero =>
    intro edges visited hnd hvis _ hfuel
    have hsub : visited ⊆ (targetsOf g).dedup := by
      intro x hx
      exact List.mem_dedup.mpr (hvis x hx)
    have hle := (hnd.subperm hsub).length_le
    omega
  | succ f ih =>
    intro edges
    induction edges with
    | nil => intro visited _ _ _ _; simp [detect, detectScan]
    | cons e rest ihe =>
      intro visited hnd hvis hedges hfuel
      change detectScan g root (detect g root f) (e :: rest) visited =
        detectScan g root (detect g root (f + 1)) (e :: rest) visited
      simp only [detectScan]
      by_cases hc : visited.contains e
      · rw [if_pos hc, if_pos hc]
      · rw [if_neg hc, if_neg hc]
        have hmem : e ∉ visited := fun hv => hc (by simpa using hv)
        have h1 : detect g root f (lookupD g e) (visited ++ [e]) =
            detect g root (f + 1) (lookupD g e) (visited ++ [e]) := by
          refine ih (lookupD g e) (visited ++ [e]) ?_ ?_ ?_ ?_
          · exact List.Nodup.append hnd (List.nodup_singleton e)
              (fun x hx hx2 => by rcases List.mem_singleton.mp hx2 with rfl; exact hmem hx)
          · intro x hx
            rcases List.mem_append.mp hx with h | h
            · exact hvis x h
            · rcases List.mem_singleton.mp h with rfl
              exact hedges x (List.mem_cons_self ..)
          · intro x hx
            exact lookupD_subset_targets g e x hx
          · rw [List.length_append, List.length_singleton]
            omega
        have h2 : detectScan g root (detect g root f) rest visited =
            detectScan g root (detect g root (f + 1)) rest visited :=
          ihe visited hnd hvis
            (fun x hx => hedges x (List.mem_cons_of_mem e hx)) hfuel
        rw [h1, h2]

/-- The fuel chosen in `cycles` is already in the stable regime: any extra
fuel yields the same result, so the fuel is purely a termination device. -/
theorem cycles_fuel_stable (g : List (String × List String)) (start : String)
    (k : Nat) :
    detect g start (graphFuel g + k) (lookupD g start) [] = cycles g start := by
  induction k with
  | zero => rfl
  | succ n ih =>
    rw [← ih, Nat.add_succ]
    refine (detect_fuel_succ g start (graphFuel g + n) (lookupD g start) []
      List.nodup_nil (by intro x hx; simp at hx)
      (fun x hx => lookupD_subset_targets g start x hx) ?_).symm
    simp only [List.length_nil, Nat.add_zero, graphFuel, targetsOf]
    omega

/-- In a scan whose path has already returned to the root, any edge back into
the path records a cycle, whatever the descents do. -/
theorem detectScan_ne_nil_of_hit (g : List (String × List String)) (root : String)
    (descend : List String → List String → List String) :
    ∀ (edges visited : List String), visited.getLast? = some root →
      (∃ e ∈ edges, e ∈ visited) →
      detectScan g root descend edges visited ≠ [] := by
  intro edges
  induction edges with
  | nil => intro visited _ hhit; simp at hhit
  | cons e rest ih =>
    intro visited hlast hhit
    simp only [detectScan]
    by_cases hc : visited.contains e
    · rw [if_pos hc, if_pos hlast]
      simp
    · rw [if_neg hc]
      have hmem : e ∉ visited := fun hv => hc (by simpa using hv)
      obtain ⟨x, hx, hxv⟩ := hhit
      rcases List.mem_cons.mp hx with rfl | hx2
      · exact absurd hxv hmem
      · intro happ
        rcases List.append_eq_nil.mp happ with ⟨-, h2⟩
        exact ih visited hlast ⟨x, hx2, hxv⟩ h2

/-- If a scan returns nothing, then the descent at the first edge that is not
preceded by any path hit also returned nothing. -/
theorem detectScan_nil_descend (g : List (String × List String)) (root : String)
    (descend : List String → List String → List String) :
    ∀ (E1 E2 : List String) (x : String) (visited : List String),
      (∀ y ∈ E1, y ∉ visited) → x ∉ visited →
      detectScan g root descend (E1 ++ x :: E2) visited = [] →
      descend (lookupD g x) (visited ++ [x]) = [] := by
  intro E1
  induction E1 with
  | nil =>
    intro E2 x visited _ hx h
    simp only [List.nil_append, detectScan] at h
    rw [if_neg (fun hc => hx (by simpa using hc))] at h
    exact (List.append_eq_nil.mp h).1
  | cons y E1 ih =>
    intro E2 x visited hE1 hx h
    simp only [List.cons_append, detectScan] at h
    have hy : y ∉ visited := hE1 y (List.mem_cons_self ..)
    rw [if_neg (fun hc => hy (by simpa using hc))] at h
    exact ih E2 x visited (fun z hz => hE1 z (List.mem_cons_of_mem y hz)) hx
      (List.append_eq_nil.mp h).2

/-- Along a cycle of minimal length, no node has an edge back into the part
of the cycle already walked: such an edge would close a strictly shorter
cycle. -/
theorem min_cycle_no_back_edge {g : List (String × List String)} {w : String}
    {cs : List String}
    (hch : List.Chain (edgeRel g) w (cs ++ [w])) (hnd : (cs ++ [w]).Nodup)
    (hmin : ∀ v l, SimpleCycleThrough g v l → cs.length + 1 ≤ l.length) :
    ∀ (P rest : List String), cs = P ++ rest →
      ∀ y ∈ lookupD g (lastNode w P), y ∉ P := by
  intro P rest hPr y hy hyP
  obtain ⟨P1, P2, hP⟩ := List.append_of_mem hyP
  have hcsnd : cs.Nodup := (List.nodup_append.mp hnd).1
  have hPnd : P.Nodup := by
    rw [hPr] at hcsnd
    exact (List.nodup_append.mp hcsnd).1
  have hchcs : List.Chain (edgeRel g) w cs := chain_of_append_left cs w hch
  have hchP : List.Chain (edgeRel g) w P := by
    rw [hPr] at hchcs
    exact chain_of_append_left P w hchcs
  have hsuf : List.Chain (edgeRel g) (lastNode w P1) (y :: P2) := by
    rw [hP] at hchP
    exact chain_of_append_right P1 w hchP
  rw [List.chain_cons] at hsuf
  have hlast : lastNode w P = lastNode y P2 := by
    rw [hP, lastNode_append, lastNode_cons]
  have hclose : edgeRel g (lastNode y P2) y := by
    rw [← hlast]
    exact hy
  have hcyc2 : SimpleCycleThrough g y (P2 ++ [y]) := by
    refine ⟨by simp, chain_snoc P2 y y hsuf.2 hclose, List.getLast?_concat _, ?_⟩
    have h1 : (y :: P2).Nodup := by
      rw [hP] at hPnd
      exact (List.nodup_append.mp hPnd).2.1
    rcases List.nodup_cons.mp h1 with ⟨hyP2, hP2nd⟩
    exact List.Nodup.append hP2nd (List.nodup_singleton y)
      (fun x hx hx2 => by rcases List.mem_singleton.mp hx2 with rfl; exact hyP2 hx)
  have hlen := hmin y (P2 ++ [y]) hcyc2
  have h1 : P.length = P1.length + 1 + P2.length := by
    rw [hP]
    simp [List.length_append]
    omega
  have h2 : P.length ≤ cs.length := by
    rw [hPr]
    simp [List.length_append]
  simp only [List.length_append, List.length_singleton] at hlen
  omega

/-- Walking a minimal cycle from its root, `detect` cannot come back empty:
every potential `break` would close a strictly shorter cycle, so the walk
reaches the root again, where recording is guaranteed. -/
theorem detect_follow {g : List (String × List String)} {w : String}
    {cs : List String}
    (hch : List.Chain (edgeRel g) w (cs ++ [w])) (hnd : (cs ++ [w]).Nodup)
    (hmin : ∀ v l, SimpleCycleThrough g v l → cs.length + 1 ≤ l.length) :
    ∀ (rest P : List String) (fuel : Nat), cs = P ++ rest →
      rest.length + 2 ≤ fuel →
      detect g w fuel (lookupD g (lastNode w P)) P ≠ [] := by
  intro rest
  induction rest with
  | nil =>
    intro P fuel hP hf
    rw [List.append_nil] at hP
    have hch2 : List.Chain (edgeRel g) w (P ++ [w]) := hP ▸ hch
    have hnd2 : (P ++ [w]).Nodup := hP ▸ hnd
    obtain ⟨f1, rfl⟩ : ∃ f1, fuel = f1 + 1 := ⟨fuel - 1, by omega⟩
    obtain ⟨f2, rfl⟩ : ∃ f2, f1 = f2 + 1 := ⟨f1 - 1, by omega⟩
    intro h0
    change detectScan g w (detect g w (f2 + 1)) (lookupD g (lastNode w P)) P = []
      at h0
    have hedge : edgeRel g (lastNode w P) w := chain_last_edge P w w hch2
    obtain ⟨E1, E2, hE⟩ := List.append_of_mem hedge
    have hblock := min_cycle_no_back_edge hch hnd hmin P [] (by simp [hP])
    have hwnotin : w ∉ P := by
      intro hw
      exact (List.nodup_append.mp hnd2).2.2 hw (List.mem_singleton_self w)
    rw [hE] at h0
    have hdesc := detectScan_nil_descend g w (detect g w (f2 + 1)) E1 E2 w P
      (fun y hy => hblock y (by rw [hE]; exact List.mem_append_left _ hy))
      hwnotin h0
    change detectScan g w (detect g w f2) (lookupD g w) (P ++ [w]) = [] at hdesc
    refine detectScan_ne_nil_of_hit g w (detect g w f2) (lookupD g w) (P ++ [w])
      (List.getLast?_concat _) ?_ hdesc
    cases P with
    | nil =>
      have h1 : edgeRel g w w := List.chain_singleton.mp (by simpa using hch2)
      exact ⟨w, h1, by simp⟩
    | cons c cs2 =>
      have h1 : edgeRel g w c := (List.chain_cons.mp (by simpa using hch2)).1
      exact ⟨c, h1, by simp⟩
  | cons r rest2 ih =>
    intro P fuel hP hf
    obtain ⟨f1, rfl⟩ : ∃ f1, fuel = f1 + 1 := ⟨fuel - 1, by omega⟩
    intro h0
    change detectScan g w (detect g w f1) (lookupD g (lastNode w P)) P = [] at h0
    have hsplit : List.Chain (edgeRel g) w (P ++ [r]) := by
      have hbig : List.Chain (edgeRel g) w ((P ++ [r]) ++ (rest2 ++ [w])) := by
        have heq : (P ++ [r]) ++ (rest2 ++ [w]) = cs ++ [w] := by
          rw [hP]
          simp
        rw [heq]
        exact hch
      exact chain_of_append_left _ w hbig
    have hedge : edgeRel g (lastNode w P) r := chain_last_edge P w r hsplit
    obtain ⟨E1, E2, hE⟩ := List.append_of_mem hedge
    have hblock := min_cycle_no_back_edge hch hnd hmin P (r :: rest2) hP
    have hrP : r ∉ P := by
      have hcsnd : cs.Nodup := (List.nodup_append.mp hnd).1
      rw [hP] at hcsnd
      intro hr
      exact (List.nodup_append.mp hcsnd).2.2 hr (List.mem_cons_self ..)
    rw [hE] at h0
    have hdesc := detectScan_nil_descend g w (detect g w f1) E1 E2 r P
      (fun y hy => hblock y (by rw [hE]; exact List.mem_append_left _ hy))
      hrP h0
    have hrec := ih (P ++ [r]) f1 (by rw [hP]; simp)
      (by simp only [List.length_cons] at hf; omega)
    rw [lastNode_concat] at hrec
    exact hrec hdesc

/-- Completeness of `cycles` over the roots validation tries: a graph that
contains a simple cycle has an edge target at which `cycles` reports one.
(Chosen root: any node on a cycle of minimal length.) -/
theorem cycles_complete (g : List (String × List String))
    (hcyc : ∃ v l, SimpleCycleThrough g v l) :
    ∃ u wt, edgeRel g u wt ∧ cycles g wt ≠ [] := by
  classical
  obtain ⟨n, hn, hminN⟩ := Nat.lt_wfRel.wf.has_min
    {n | ∃ v l, SimpleCycleThrough g v l ∧ l.length = n}
    (by obtain ⟨v, l, h⟩ := hcyc; exact ⟨l.length, v, l, h, rfl⟩)
  obtain ⟨v, l, hvl, rfl⟩ := hn
  have hne := hvl.1
  obtain ⟨cs, hcs⟩ : ∃ cs, l = cs ++ [v] := by
    refine ⟨l.dropLast, ?_⟩
    have h1 := List.dropLast_append_getLast hne
    have h2 : l.getLast hne = v := by
      have h3 := hvl.2.2.1
      rw [List.getLast?_eq_getLast l hne] at h3
      exact Option.some_injective _ h3
    rw [← h2]
    exact h1.symm
  have hch : List.Chain (edgeRel g) v (cs ++ [v]) := by
    rw [← hcs]
    exact hvl.2.1
  have hnd : (cs ++ [v]).Nodup := by
    rw [← hcs]
    exact hvl.2.2.2
  have hmin : ∀ v2 l2, SimpleCycleThrough g v2 l2 → cs.length + 1 ≤ l2.length := by
    intro v2 l2 h2
    have hnotlt := hminN l2.length ⟨v2, l2, h2, rfl⟩
    have hl : l.length = cs.length + 1 := by
      rw [hcs]
      simp
    simp only [Nat.lt_wfRel] at hnotlt
    omega
  have hsub : ∀ x ∈ cs ++ [v], x ∈ targetsOf g := chain_mem_targets g _ v hch
  have hsz : cs.length + 1 ≤ (targetsOf g).dedup.length := by
    have hsp := (hnd.subperm
      (fun x hx => List.mem_dedup.mpr (hsub x hx))).length_le
    simpa using hsp
  have hrun := detect_follow hch hnd hmin cs [] (graphFuel g) (by simp)
    (by simp only [graphFuel, targetsOf] at hsz ⊢; omega)
  refine ⟨lastNode v cs, v, chain_last_edge cs v v hch, ?_⟩
  simpa [cycles, lastNode_nil] using hrun

/-- An edge of the `needs` graph comes from a declared stage whose `needs`
value list contains the target. -/
theorem needsGraph_edge (stages : List (String × StageCfg)) (u y : String)
    (h : edgeRel (needsGraph stages) u y) :
    ∃ st, (u, st) ∈ stages ∧ y ∈ arrayOf st.needs := by
  induction stages with
  | nil => simp [edgeRel, needsGraph, lookupD, List.lookup] at h
  | cons p stages2 ih =>
    obtain ⟨k, st⟩ := p
    by_cases hk : (u == k) = true
    · have huk : u = k := by simpa using hk
      have he : lookupD (needsGraph ((k, st) :: stages2)) u = arrayOf st.needs := by
        simp [needsGraph, lookupD, List.lookup, hk]
      rw [edgeRel, he] at h
      exact ⟨st, by rw [huk]; exact List.mem_cons_self .., h⟩
    · rw [Bool.not_eq_true] at hk
      have he : lookupD (needsGraph ((k, st) :: stages2)) u =
          lookupD (needsGraph stages2) u := by
        simp [needsGraph, lookupD, List.lookup, hk]
      rw [edgeRel, he] at h
      obtain ⟨st2, hmem, hy⟩ := ih h
      exact ⟨st2, List.mem_cons_of_mem _ hmem, hy⟩

/-- Whatever the earlier checks decide, `need` cannot succeed on a value at
which `cycles` reports a cycle. -/
theorem needCheck_not_ok (stages : List (String × StageCfg)) (u y : String)
    (hne : cycles (needsGraph stages) y ≠ []) :
    okB (needCheck stages u y) = false := by
  unfold needCheck
  by_cases h1 : (y == u) = true
  · rw [if_pos h1]
    rfl
  · rw [if_neg h1]
    by_cases h2 : hasStage stages y
    · rw [if_neg (by simp [h2])]
      have hpos : 0 < (cycles (needsGraph stages) y).length :=
        List.length_pos.mpr hne
      simp only [hpos, if_pos, gt_iff_lt]
      rfl
    · rw [if_pos (by simpa using h2)]
      rfl

/-- A declared `needs` edge into a node at which `cycles` reports a cycle
makes stage validation fail. -/
theorem stagesCheck_false_of_edge (stages : List (String × StageCfg))
    (u y : String) (st : StageCfg) (hmem : (u, st) ∈ stages)
    (hy : y ∈ arrayOf st.needs)
    (hne : cycles (needsGraph stages) y ≠ []) :
    stagesCheck stages = false := by
  by_contra h
  rw [Bool.not_eq_false] at h
  have hall := List.all_eq_true.mp h (u, st) hmem
  rw [Bool.and_eq_true] at hall
  have hneeds := hall.1
  cases hst : st.needs with
  | none =>
    rw [hst] at hy
    simp [arrayOf] at hy
  | some oom =>
    cases oom with
    | one s =>
      rw [hst] at hy hneeds
      by_cases hs : (s == "") = true
      · simp [arrayOf, hs] at hy
      · rw [Bool.not_eq_true] at hs
        simp only [arrayOf, hs, Bool.false_eq_true, if_false,
          List.mem_singleton] at hy
        subst hy
        rw [show checkNeeds stages u (some (OneOrMany.one y)) =
          okB (needCheck stages u y) from rfl] at hneeds
        rw [needCheck_not_ok stages u y hne] at hneeds
        exact Bool.false_ne_true hneeds
    | many ls =>
      rw [hst] at hy hneeds
      simp only [arrayOf] at hy
      rw [show checkNeeds stages u (some (OneOrMany.many ls)) =
        (pairwiseDistinct ls && ls.all fun s => okB (needCheck stages u s))
        from rfl] at hneeds
      rw [Bool.and_eq_true] at hneeds
      have := List.all_eq_true.mp hneeds.2 y hy
      rw [needCheck_not_ok stages u y hne] at this
      exact Bool.false_ne_true this

/-! ## Claim C2: the `ensure` protocol -/

/-- C2: for every environment and commit SHA, if the lock reference points at
that SHA then `ensure` succeeds silently (no state change); if it points at a
different SHA then `ensure` throws; and when no lock exists, `ensure` behaves
exactly as `lock` — it acquires the reference — showing that the optimistic
`lock` attempt comes first and the read of the existing reference is only a
fallback on lock failure. -/
theorem ensure_lock_protocol (refs : Refs) (env sha : String) :
    (getRef refs (reference env) = some sha → ensureRepo refs env sha = .ok refs) ∧
    (∀ cur, getRef refs (reference env) = some cur → cur ≠ sha →
      ensureRepo refs env sha =
        .error ("Failed to ensure lock for " ++ env ++ " at " ++ sha)) ∧
    (getRef refs (reference env) = none →
      ensureRepo refs env sha = lockRepo refs env sha ∧
      ensureRepo refs env sha = .ok ((reference env, sha) :: refs)) := by
  refine ⟨?_, ?_, ?_⟩
  · intro h
    have hl : refs.lookup (reference env) = some sha := h
    simp [ensureRepo, lockRepo, createRef, getRef, hl]
  · intro cur h hne
    have hl : refs.lookup (reference env) = some cur := h
    simp [ensureRepo, lockRepo, createRef, getRef, hl, hne]
  · intro h
    have hl : refs.lookup (reference env) = none := h
    simp [ensureRepo, lockRepo, createRef, getRef, hl]

/-- Witness for C2 at a concrete reference store: the lock for `prod` points
at `s1`, so `ensure` with `s1` succeeds silently, `ensure` with `s2` throws,
and on an empty store `ensure` acquires the lock. -/
theorem ensure_lock_protocol_witness :
    ensureRepo [("deployments/prod", "s1")] "prod" "s1" =
      .ok [("deployments/prod", "s1")] ∧
    ensureRepo [("deployments/prod", "s1")] "prod" "s2" =
      .error "Failed to ensure lock for prod at s2" ∧
    ensureRepo [] "prod" "s1" = .ok [("deployments/prod", "s1")] :=
  ⟨(ensure_lock_protocol [("deployments/prod", "s1")] "prod" "s1").1 rfl,
   (ensure_lock_protocol [("deployments/prod", "s1")] "prod" "s2").2.1 "s1" rfl
     (by decide),
   ((ensure_lock_protocol [] "prod" "s1").2.2 rfl).2⟩

/-! ## Claim C4: self-referential `needs` vs self-referential `runs` -/

/-- C4: a `needs` entry in which a stage names itself is always rejected by
the `need` rule (with the "it cannot reference own stage" error), while a
`runs` entry that names the action's own enclosing stage — a declared stage —
is always accepted by the `run` rule. -/
theorem self_needs_rejected_self_runs_accepted :
    (∀ (stages : List (String × StageCfg)) (child : String),
      needCheck stages child child = .error "it cannot reference own stage") ∧
    (∀ (stages : List (String × StageCfg)) (own : String),
      hasStage stages own = true → runCheck stages own = .ok ()) := by
  constructor
  · intro stages child
    simp [needCheck]
  · intro stages own h
    simp [runCheck, h]

/-- Witness for C4 at a concrete stages object: the single stage `aa` with an
action whose `runs` names `aa` itself. -/
theorem self_needs_rejected_self_runs_accepted_witness :
    needCheck [("aa", {})] "aa" "aa" = .error "it cannot reference own stage" ∧
    runCheck [("aa", {})] "aa" = .ok () :=
  ⟨self_needs_rejected_self_runs_accepted.1 [("aa", {})] "aa",
   self_needs_rejected_self_runs_accepted.2 [("aa", {})] "aa" (by decide)⟩

/-! ## Claim C5: trigger matching -/

/-- C5: `matches` on the string form is equality with the trigger kind, on
the array form it is membership, and on the map form it is `false` for an
absent key, `true` for a key mapped to null (no filter), and branch
membership for a key mapped to a `branches` list. -/
theorem matches_characterisation (c : Config) (kind branch : String) :
    (∀ s, c.triggers = .str s → c.matches kind branch = (s == kind)) ∧
    (∀ l, c.triggers = .arr l → c.matches kind branch = l.contains kind) ∧
    (∀ m, c.triggers = .map m →
      (m.lookup kind = none → c.matches kind branch = false) ∧
      (m.lookup kind = some none → c.matches kind branch = true) ∧
      (∀ t bs, m.lookup kind = some (some t) → t.branches = some bs →
        c.matches kind branch = bs.contains branch)) := by
  refine ⟨?_, ?_, ?_⟩
  · intro s h
    simp [Config.matches, h]
  · intro l h
    simp [Config.matches, h]
  · intro m h
    refine ⟨?_, ?_, ?_⟩
    · intro hl
      simp [Config.matches, h, hl]
    · intro hl
      simp [Config.matches, h, hl]
    · intro t bs hl hb
      simp [Config.matches, h, hl, hb]

/-- Witness for C5 at a concrete configuration declaring
`on: \x7b pull_request: \x7b branches: [master] \x7d \x7d`. -/
theorem matches_characterisation_witness :
    (Config.mk "aa" "aa" "d" none
      (.map [("pull_request", some ⟨some ["master"]⟩)])
      []).matches "pull_request" "master" = true ∧
    (Config.mk "aa" "aa" "d" none
      (.map [("pull_request", some ⟨some ["master"]⟩)])
      []).matches "push" "master" = false := by
  constructor
  · have h := ((matches_characterisation
      (Config.mk "aa" "aa" "d" none
        (.map [("pull_request", some ⟨some ["master"]⟩)]) [])
      "pull_request" "master").2.2 _ rfl).2.2 ⟨some ["master"]⟩ ["master"] rfl rfl
    simpa using h
  · have h := ((matches_characterisation
      (Config.mk "aa" "aa" "d" none
        (.map [("pull_request", some ⟨some ["master"]⟩)]) [])
      "push" "master").2.2 _ rfl).1 rfl
    simpa using h

/-! ## Claims C3 and C10: cycle detection vs validation -/

/-- C3: a stage configuration whose `needs` graph contains a (simple) cycle
of length at least 2 is rejected by stage validation, and every cycle path
the detector reports is the rendering `a -> b -> c -> a` of a simple cycle
through the root under test: it starts and ends at that root and lists
exactly the nodes of that cycle, each once. -/
theorem cyclic_config_rejected (stages : List (String × StageCfg))
    (v0 : String) (l0 : List String)
    (hcyc : SimpleCycleThrough (needsGraph stages) v0 l0)
    (_hlen : 2 ≤ l0.length) :
    stagesCheck stages = false ∧
    (∀ root s, s ∈ cycles (needsGraph stages) root →
      ∃ l, SimpleCycleThrough (needsGraph stages) root l ∧
        s = renderCycle root l) := by
  constructor
  · obtain ⟨u, wt, hedge, hne⟩ :=
      cycles_complete (needsGraph stages) ⟨v0, l0, hcyc⟩
    obtain ⟨st, hmem, hwt⟩ := needsGraph_edge stages u wt hedge
    exact stagesCheck_false_of_edge stages u wt st hmem hwt hne
  · intro root s hs
    exact cycles_sound _ root s hs

/-- Witness for C3: the two-stage configuration in which `aa` needs `bb` and
`bb` needs `aa` is rejected, and its reported cycle rooted at `bb` is exactly
`bb -> aa -> bb`. -/
theorem cyclic_config_rejected_witness :
    stagesCheck [("aa", { needs := some (.one "bb") }),
      ("bb", { needs := some (.one "aa") })] = false ∧
    ∃ l, SimpleCycleThrough
        (needsGraph [("aa", { needs := some (.one "bb") }),
          ("bb", { needs := some (.one "aa") })]) "bb" l ∧
      "bb -> aa -> bb" = renderCycle "bb" l := by
  have h := cyclic_config_rejected
    [("aa", { needs := some (.one "bb") }), ("bb", { needs := some (.one "aa") })]
    "aa" ["bb", "aa"]
    ⟨by decide, List.Chain.cons (by decide) (List.Chain.cons (by decide)
      List.Chain.nil), by decide, by decide⟩ (by decide)
  exact ⟨h.1, h.2 "bb" "bb -> aa -> bb" (by decide)⟩

/-- A declared stage has an entry in the `needs` adjacency map. -/
theorem needsGraph_lookup_isSome (stages : List (String × StageCfg))
    (y : String) (h : hasStage stages y = true) :
    ((needsGraph stages).lookup y).isSome = true := by
  induction stages with
  | nil => simp [hasStage] at h
  | cons p rest ih =>
    by_cases hk : p.1 = y
    · subst hk
      simp [needsGraph, List.lookup]
    · have hb : (y == p.1) = false := by
        rw [Bool.eq_false_iff]
        intro hbe
        have hyp : y = p.1 := by simpa using hbe
        exact hk hyp.symm
      have hb2 : (p.1 == y) = false := by
        rw [Bool.eq_false_iff]
        intro hbe
        exact hk (by simpa using hbe)
      have h2 : hasStage rest y = true := by
        simpa [hasStage, hb2] using h
      have := ih h2
      simpa [needsGraph, List.lookup, hb] using this

/-- A stages map whose `needs` values all reference declared stages has a
closed `needs` graph, the regime where the embedding agrees with the
source's `graph[edge]` lookups. -/
theorem needsGraph_closed (stages : List (String × StageCfg))
    (h : ∀ p ∈ stages, ∀ y ∈ arrayOf p.2.needs, hasStage stages y = true) :
    closedGraph (needsGraph stages) = true := by
  rw [closedGraph, List.all_eq_true]
  intro q hq
  rw [List.all_eq_true]
  intro y hy
  obtain ⟨p, hp, hpe⟩ := List.mem_map.mp hq
  rw [← hpe] at hy
  exact needsGraph_lookup_isSome stages y (h p hp y hy)

/-- C10: on an acyclic closed graph — every dependency names a declared key,
as in the claim's "mapping each declared stage to its declared dependencies"
(on a dangling edge the source's `graph[edge]` lookup crashes instead of
returning) — `cycles` returns the empty list from every start node, and
consequently on a configuration whose `needs` values are all declared stages
and whose `needs` graph is acyclic, the `need` rule never rejects a value
whose other checks pass (declared, and different from the child). -/
theorem acyclic_graph_not_rejected :
    (∀ (g : List (String × List String)), closedGraph g = true → Acyclic g →
      ∀ start, cycles g start = []) ∧
    (∀ (stages : List (String × StageCfg)),
      (∀ p ∈ stages, ∀ y ∈ arrayOf p.2.needs, hasStage stages y = true) →
      Acyclic (needsGraph stages) →
      ∀ child value, value ≠ child → hasStage stages value = true →
        needCheck stages child value = .ok ()) := by
  have hempty : ∀ (g : List (String × List String)), closedGraph g = true →
      Acyclic g → ∀ start, cycles g start = [] := by
    intro g _ hacy start
    by_contra h
    obtain ⟨s, hs⟩ := List.exists_mem_of_ne_nil _ h
    obtain ⟨l, hl, -⟩ := cycles_sound g start s hs
    exact hacy start l hl
  refine ⟨hempty, ?_⟩
  intro stages hdecl hacy child value hne hhas
  unfold needCheck
  rw [if_neg (by simpa using hne)]
  rw [if_neg (by simp [hhas])]
  simp [hempty (needsGraph stages) (needsGraph_closed stages hdecl) hacy value]

/-! ## Claim C9: directory listing -/

/-- A key outside the key list of an association list has no binding. -/
theorem lookup_none_of_not_mem_keys {α : Type} :
    ∀ (items : List (String × α)) (k : String),
      k ∉ items.map Prod.fst → items.lookup k = none := by
  intro items
  induction items with
  | nil => intro k _; rfl
  | cons p items2 ih =>
    intro k hk
    obtain ⟨k1, v1⟩ := p
    simp only [List.map_cons, List.mem_cons, not_or] at hk
    have hne : (k == k1) = false := by
      rw [Bool.eq_false_iff]
      intro hb
      exact hk.1 (by simpa using hb)
    have hstep : List.lookup k ((k1, v1) :: items2) = List.lookup k items2 := by
      simp only [List.lookup, hne]
    rw [hstep]
    exact ih k hk.2

/-- With pairwise-distinct derived keys, the listing fold only ever appends:
starting from `items`, it produces `items` followed by one entry per file,
keyed by the file's derived key and holding its load outcome. -/
theorem configList_go :
    ∀ (files : List RepoFile) (items : List (String × Except String Config)),
      (∀ f ∈ files, eligibleFile f = true) →
      (items.map Prod.fst ++ files.map derivedKey).Nodup →
      files.foldl configStep items =
        items ++ files.map (fun f => (derivedKey f, f.loaded)) := by
  intro files
  induction files with
  | nil => intro items _ _; simp
  | cons f fs ih =>
    intro items helig hnd
    have he := helig f (List.mem_cons_self ..)
    have hkmem : derivedKey f ∉ items.map Prod.fst := by
      intro hmem
      exact (List.nodup_append.mp hnd).2.2 hmem
        (by simp [List.mem_cons_self])
    have hkey : items.lookup (derivedKey f) = none :=
      lookup_none_of_not_mem_keys items (derivedKey f) hkmem
    have hstep : configStep items f = items ++ [(derivedKey f, f.loaded)] := by
      unfold configStep
      rw [if_pos he]
      cases hl : f.loaded with
      | error err =>
        have hk : derivedKey f = fileIdOf f.path := by simp [derivedKey, hl]
        show insertJS items (fileIdOf f.path) (Except.error err) =
          items ++ [(derivedKey f, Except.error err)]
        rw [← hk]
        simp [insertJS, hkey]
      | ok cfg =>
        have hk : derivedKey f = cfg.id := by simp [derivedKey, hl]
        show insertJS items cfg.id (Except.ok cfg) =
          items ++ [(derivedKey f, Except.ok cfg)]
        rw [← hk]
        simp [insertJS, hkey]
    rw [List.foldl_cons, hstep,
      ih (items ++ [(derivedKey f, f.loaded)])
        (fun f2 h2 => helig f2 (List.mem_cons_of_mem f h2))
        (by simpa [List.append_assoc] using hnd)]
    simp

/-- Filtering the produced entries for errors matches filtering the files. -/
theorem map_filter_err (files : List RepoFile) :
    ((files.map (fun f => (derivedKey f, f.loaded))).filter
        (fun p => isErrE p.2)).length =
      (files.filter (fun f => isErrE f.loaded)).length := by
  induction files with
  | nil => rfl
  | cons f fs ih =>
    by_cases h : isErrE f.loaded = true <;>
      simp [List.filter, h, ih]

/-- Filtering the produced entries for successes matches filtering the
files. -/
theorem map_filter_ok (files : List RepoFile) :
    ((files.map (fun f => (derivedKey f, f.loaded))).filter
        (fun p => !isErrE p.2)).length =
      (files.filter (fun f => !isErrE f.loaded)).length := by
  induction files with
  | nil => rfl
  | cons f fs ih =>
    by_cases h : isErrE f.loaded = true <;>
      simp [List.filter, h, ih]

/-- Successes are the complement of failures. -/
theorem filter_ok_len (files : List RepoFile) :
    (files.filter (fun f => !isErrE f.loaded)).length =
      files.length - (files.filter (fun f => isErrE f.loaded)).length := by
  induction files with
  | nil => rfl
  | cons f fs ih =>
    have hle := List.length_filter_le (fun f => isErrE f.loaded) fs
    by_cases h : isErrE f.loaded = true
    · simp [List.filter, h, ih]
    · simp [List.filter, h, ih]
      omega

/-- C9 counterexample: the claim fails when two files derive the same id.
The listing of the two failing files `ab.yml` and `ab.yaml` (both deriving
the id `ab`) has N = 2 and M = 2 but produces a single (error) entry, not
two. -/
theorem config_list_collision :
    ([⟨"ab.yml", "ab.yml", "file", .error "bad one"⟩,
        ⟨"ab.yaml", "ab.yaml", "file", .error "bad two"⟩] : List RepoFile).length
      = 2 ∧
    (∀ f ∈ ([⟨"ab.yml", "ab.yml", "file", .error "bad one"⟩,
        ⟨"ab.yaml", "ab.yaml", "file", .error "bad two"⟩] : List RepoFile),
      isErrE f.loaded = true) ∧
    ((configList [⟨"ab.yml", "ab.yml", "file", .error "bad one"⟩,
        ⟨"ab.yaml", "ab.yaml", "file", .error "bad two"⟩]).filter
      (fun p => isErrE p.2)).length = 1 := by
  refine ⟨rfl, ?_, rfl⟩
  intro f hf
  rcases List.mem_cons.mp hf with rfl | hf2
  · rfl
  · rcases List.mem_cons.mp hf2 with rfl | hf3
    · rfl
    · simp at hf3

/-- C9 (amended): for a directory listing of N yaml config files of which M
fail validation, provided the derived keys (filename-derived ids of failing
files and config ids of successful ones) are pairwise distinct, `list`
returns one entry per file in order — so one file's failure never prevents
the others from loading — with exactly M error entries and N - M successful
entries under pairwise-distinct keys. -/
theorem config_list_counts (files : List RepoFile)
    (helig : ∀ f ∈ files, eligibleFile f = true)
    (hkeys : (files.map derivedKey).Nodup) :
    configList files = files.map (fun f => (derivedKey f, f.loaded)) ∧
    ((configList files).filter (fun p => isErrE p.2)).length =
      (files.filter (fun f => isErrE f.loaded)).length ∧
    ((configList files).filter (fun p => !isErrE p.2)).length =
      files.length - (files.filter (fun f => isErrE f.loaded)).length ∧
    ((configList files).map Prod.fst).Nodup := by
  have hexp : configList files =
      files.map (fun f => (derivedKey f, f.loaded)) :=
    configList_go files [] helig (by simpa using hkeys)
  refine ⟨hexp, ?_, ?_, ?_⟩
  · rw [hexp]
    exact map_filter_err files
  · rw [hexp, map_filter_ok files]
    exact filter_ok_len files
  · rw [hexp, List.map_map]
    simpa [Function.comp] using hkeys

/-- Witness for C9 (amended) at a two-file listing with distinct ids: one
failing file and one succeeding file produce one error entry and one
successful entry. -/
theorem config_list_counts_witness :
    ((configList [⟨"aa.yml", "aa.yml", "file", .error "bad"⟩,
        ⟨"bb.yml", "bb.yml", "file",
          .ok ⟨"bb", "bb", "d", none, .str "push", [("deploy", {})]⟩⟩]).filter
      (fun p => isErrE p.2)).length = 1 ∧
    ((configList [⟨"aa.yml", "aa.yml", "file", .error "bad"⟩,
        ⟨"bb.yml", "bb.yml", "file",
          .ok ⟨"bb", "bb", "d", none, .str "push", [("deploy", {})]⟩⟩]).filter
      (fun p => !isErrE p.2)).length = 2 - 1 := by
  have h := config_list_counts
    [⟨"aa.yml", "aa.yml", "file", .error "bad"⟩,
      ⟨"bb.yml", "bb.yml", "file",
        .ok ⟨"bb", "bb", "d", none, .str "push", [("deploy", {})]⟩⟩]
    (by decide) (by decide)
  exact ⟨h.2.1.trans (by decide), h.2.2.1.trans (by decide)⟩

/-- Witness for C10: the one-stage configuration `aa` (no `needs`) has a
closed acyclic graph; `cycles` is empty at the tested start and `need`
accepts a reference to `aa` from another stage id. -/
theorem acyclic_graph_not_rejected_witness :
    cycles (needsGraph [("aa", {})]) "aa" = [] ∧
    needCheck [("aa", {})] "bb" "aa" = .ok () := by
  have hedge : ∀ a b, ¬ edgeRel (needsGraph [("aa", ({} : StageCfg))]) a b := by
    intro a b hb
    by_cases h : (a == "aa") = true <;>
      simp [edgeRel, needsGraph, arrayOf, lookupD, List.lookup, h] at hb
  have hacy : Acyclic (needsGraph [("aa", {})]) := by
    intro v l hl
    obtain ⟨hne, hch, -, -⟩ := hl
    cases l with
    | nil => exact hne rfl
    | cons b l2 => exact hedge v b (List.chain_cons.mp hch).1
  exact ⟨acyclic_graph_not_rejected.1 _ (by decide) hacy "aa",
    acyclic_graph_not_rejected.2 _ (by decide) hacy "bb" "aa" (by decide)
      (by decide)⟩

/-! ## Claim C1: lock discipline of the event handlers -/

/-- C1 evaluated at the input on which the code breaks the property: a
rerequest for an unlocked environment whose prior check run concluded
`success` (not `failure`).  The handler acquires the `deployments/prod` lock
and then returns early at the conclusion guard: it comes back without error,
with the newly acquired lock still held, no deployment unit queued, no check
run created and no status posted — a path that neither releases the lock nor
leaves it held pending a next stage. -/
theorem rerequest_leaks_fresh_lock :
    rerequestHandler
      ⟨[], [], [⟨1, "prod", "sha1", "completed", some "success"⟩], [], [],
        [("prod", .ok ⟨"prod", "prod", "d", none, .str "push",
          [("deploy", {})]⟩)], [], true, 10⟩
      "sha1" "prod" 1 =
    ⟨⟨[("deployments/prod", "sha1")], [],
      [⟨1, "prod", "sha1", "completed", some "success"⟩], [], [],
      [("prod", .ok ⟨"prod", "prod", "d", none, .str "push",
        [("deploy", {})]⟩)], [], true, 10⟩, [], none⟩ := by
  decide

/-! ## Claims C6 and C7: the `deploy`/`request`/`rerequest` lock step -/

/-- For a configuration that passes stage validation (with well-formed stage
ids), the code's JavaScript-truthiness test `!stage.needs` singles out
exactly the stages with no `needs` entry. -/
theorem entryStages_eq_no_needs (cfg : Config)
    (hvalid : stagesCheck cfg.stages = true)
    (hids : ∀ p ∈ cfg.stages, isIdStr p.1 = true) :
    entryStages cfg =
      (cfg.stages.filter (fun p => p.2.needs.isNone)).map Prod.fst := by
  unfold entryStages
  congr 1
  apply List.filter_congr
  intro p hp
  cases hn : p.2.needs with
  | none => simp [needsFalsy]
  | some oom =>
    cases oom with
    | many l => simp [needsFalsy]
    | one s =>
      simp only [needsFalsy, Option.isNone_some]
      rw [Bool.eq_false_iff]
      intro hs
      have hseq : s = "" := by simpa using hs
      subst hseq
      have hne : stagesCheck cfg.stages = true := hvalid
      have hall := List.all_eq_true.mp hne p hp
      rw [Bool.and_eq_true] at hall
      have hneeds := hall.1
      rw [hn] at hneeds
      have hck : checkNeeds cfg.stages p.1 (some (OneOrMany.one "")) =
          okB (needCheck cfg.stages p.1 "") := rfl
      rw [hck] at hneeds
      have hid := hids p hp
      have hlen : 2 ≤ p.1.length := by
        have h1 := hid
        simp only [isIdStr, Bool.and_eq_true, decide_eq_true_eq] at h1
        tauto
      have hb : (("" : String) == p.1) = false := by
        rw [Bool.eq_false_iff]
        intro hbe
        have : ("" : String) = p.1 := by simpa using hbe
        rw [← this] at hlen
        simp at hlen
      have hhs : hasStage cfg.stages "" = false := by
        rw [Bool.eq_false_iff]
        intro hbe
        obtain ⟨q, hq, hqe⟩ := List.any_eq_true.mp hbe
        have hq1 : q.1 = "" := by simpa using hqe
        have := hids q hq
        rw [hq1] at this
        exact absurd this (by decide)
      rw [needCheck, if_neg (by simp [hb]), if_pos (by simp [hhs])] at hneeds
      exact absurd hneeds (by decide)

/-- C6: a fresh commit event (no prior check suite) on a world with a single
valid matching configuration and an unlocked environment queues exactly one
new deployment unit whose stage list is the declared stages with no `needs`
entry, whose completed-stage list and artifact map are empty and whose task
is `deploy`, and leaves the environment's lock held at the event's SHA. -/
theorem fresh_deploy_creates_unit (w : World) (sha branch trigger env : String)
    (cfg : Config)
    (hsuite : w.suites.contains sha = false)
    (hwf : w.workflowExists = true)
    (hcfg : w.configs = [(env, .ok cfg)])
    (hmatch : cfg.matches trigger branch = true)
    (hunlocked : getRef w.refs (reference env) = none)
    (hvalid : stagesCheck cfg.stages = true)
    (hids : ∀ p ∈ cfg.stages, isIdStr p.1 = true) :
    (deployHandler w sha branch trigger).err = none ∧
    getRef (deployHandler w sha branch trigger).world.refs (reference env) =
      some sha ∧
    (deployHandler w sha branch trigger).world.deployments =
      ⟨w.nextId + 1, env, sha, "deploy",
        ⟨w.nextId,
          (cfg.stages.filter (fun p => p.2.needs.isNone)).map Prod.fst,
          [], []⟩⟩ :: w.deployments := by
  obtain ⟨refs, sts, rns, dps, wfl, cfgs, arts, wfe, nid⟩ := w
  have hlu : refs.lookup (reference env) = none := hunlocked
  have hlu2 : ((reference env, sha) :: refs).lookup (reference env) =
      some sha := by
    simp [List.lookup]
  have hes := entryStages_eq_no_needs cfg hvalid hids
  simp only at hcfg hsuite hwf
  subst hcfg hwf
  simp only [deployHandler, hsuite, Bool.false_eq_true, if_false,
    deployLoop, Bool.not_true, onceSuite, checkCreate, lockRepo, createRef,
    getRef, hlu, hlu2, hmatch, if_true, deploymentCreate, setRunStatus,
    setRunDone, hes]
  simp

/-- Witness for C6: the default single-stage configuration on `push` yields
the unit with `stages = [deploy]`, empty completed stages, empty artifacts,
and the lock held at the commit. -/
theorem fresh_deploy_creates_unit_witness :
    (deployHandler
      ⟨[], [], [], [], [],
        [("prod", .ok ⟨"prod", "prod", "d", none, .str "push",
          [("deploy", { name := some "Deploy" })]⟩)], [], true, 1⟩
      "sha1" "main" "push").err = none ∧
    getRef (deployHandler
      ⟨[], [], [], [], [],
        [("prod", .ok ⟨"prod", "prod", "d", none, .str "push",
          [("deploy", { name := some "Deploy" })]⟩)], [], true, 1⟩
      "sha1" "main" "push").world.refs (reference "prod") = some "sha1" ∧
    (deployHandler
      ⟨[], [], [], [], [],
        [("prod", .ok ⟨"prod", "prod", "d", none, .str "push",
          [("deploy", { name := some "Deploy" })]⟩)], [], true, 1⟩
      "sha1" "main" "push").world.deployments =
      [⟨2, "prod", "sha1", "deploy", ⟨1, ["deploy"], [], []⟩⟩] := by
  have h := fresh_deploy_creates_unit
    ⟨[], [], [], [], [],
      [("prod", .ok ⟨"prod", "prod", "d", none, .str "push",
        [("deploy", { name := some "Deploy" })]⟩)], [], true, 1⟩
    "sha1" "main" "push" "prod"
    ⟨"prod", "prod", "d", none, .str "push",
      [("deploy", { name := some "Deploy" })]⟩
    (by decide) rfl rfl (by decide) (by decide) (by decide) (by decide)
  exact ⟨h.1, h.2.1, h.2.2.trans (by decide)⟩

/-- C7: with the environment's lock already held (by any commit), the commit
event posts the `ready` status for that environment and continues without
error, creating no deployment unit and leaving the lock untouched, while a
fresh manual request and a fresh rerequest drop the event silently: world
unchanged, no check run, no deployment unit, no status. -/
theorem lock_conflict_handling (w : World)
    (sha branch trigger env shaHeld action : String) (runId : Nat)
    (cfg : Config)
    (hlock : getRef w.refs (reference env) = some shaHeld)
    (hsuite : w.suites.contains sha = false)
    (hwf : w.workflowExists = true)
    (hcfg : w.configs = [(env, .ok cfg)])
    (hmatch : cfg.matches trigger branch = true)
    (hnodep : depGetRun w sha env runId = none) :
    ((deployHandler w sha branch trigger).err = none ∧
      (deployHandler w sha branch trigger).world.refs = w.refs ∧
      (deployHandler w sha branch trigger).world.deployments =
        w.deployments ∧
      (deployHandler w sha branch trigger).fx =
        [.createdSuite sha, .createdRun w.nextId env sha,
          .statusReady env w.nextId]) ∧
    requestHandler w sha env runId action = ⟨w, [], none⟩ ∧
    rerequestHandler w sha env runId = ⟨w, [], none⟩ := by
  obtain ⟨refs, sts, rns, dps, wfl, cfgs, arts, wfe, nid⟩ := w
  have hlu : refs.lookup (reference env) = some shaHeld := hlock
  simp only at hcfg hsuite hwf hnodep
  subst hcfg hwf
  refine ⟨?_, ?_, ?_⟩
  · simp only [deployHandler, hsuite, Bool.false_eq_true, if_false,
      deployLoop, Bool.not_true, onceSuite, checkCreate, lockRepo, createRef,
      getRef, hlu, hmatch, if_true, setRunDone]
    simp
  · simp only [requestHandler, hnodep, lockRepo, createRef, getRef, hlu]
  · simp only [rerequestHandler, hnodep, lockRepo, createRef, getRef, hlu]

/-- Witness for C7 at a world whose `prod` lock is held at `sha0`: the push
event for `sha1` posts `ready`, and a fresh request and rerequest for `sha1`
are dropped silently. -/
theorem lock_conflict_handling_witness :
    ((deployHandler
      ⟨[("deployments/prod", "sha0")], [], [], [], [],
        [("prod", .ok ⟨"prod", "prod", "d", none, .str "push",
          [("deploy", {})]⟩)], [], true, 30⟩
      "sha1" "main" "push").fx =
      [.createdSuite "sha1", .createdRun 30 "prod" "sha1",
        .statusReady "prod" 30]) ∧
    requestHandler
      ⟨[("deployments/prod", "sha0")], [], [], [], [],
        [("prod", .ok ⟨"prod", "prod", "d", none, .str "push",
          [("deploy", {})]⟩)], [], true, 30⟩
      "sha1" "prod" 9 "deploy" =
      ⟨⟨[("deployments/prod", "sha0")], [], [], [], [],
        [("prod", .ok ⟨"prod", "prod", "d", none, .str "push",
          [("deploy", {})]⟩)], [], true, 30⟩, [], none⟩ ∧
    rerequestHandler
      ⟨[("deployments/prod", "sha0")], [], [], [], [],
        [("prod", .ok ⟨"prod", "prod", "d", none, .str "push",
          [("deploy", {})]⟩)], [], true, 30⟩
      "sha1" "prod" 9 =
      ⟨⟨[("deployments/prod", "sha0")], [], [], [], [],
        [("prod", .ok ⟨"prod", "prod", "d", none, .str "push",
          [("deploy", {})]⟩)], [], true, 30⟩, [], none⟩ := by
  have h := lock_conflict_handling
    ⟨[("deployments/prod", "sha0")], [], [], [], [],
      [("prod", .ok ⟨"prod", "prod", "d", none, .str "push",
        [("deploy", {})]⟩)], [], true, 30⟩
    "sha1" "main" "push" "prod" "sha0" "deploy" 9
    ⟨"prod", "prod", "d", none, .str "push", [("deploy", {})]⟩
    (by decide) (by decide) rfl rfl (by decide) (by decide)
  exact ⟨h.1.2.2.2, h.2.1, h.2.2⟩

/-! ## Claim C8: `completed` on an already-completed check -/

/-- C8 counterexample: with the environment locked at the commit and the
unit's check already `completed`, the handler does not leave the lock
unchanged — it deletes the lock reference before returning (posting no
status). -/
theorem completed_already_done_unlocks :
    ((completedHandler
      ⟨[("deployments/prod", "sha1")], [],
        [⟨3, "prod", "sha1", "completed", some "success"⟩],
        [⟨5, "prod", "sha1", "deploy", ⟨3, ["deploy"], [], []⟩⟩],
        [⟨7, "sha1", "deployments/prod", "completed", some "success",
          "suites/77"⟩],
        [("prod", .ok ⟨"prod", "prod", "d", none, .str "push",
          [("deploy", {})]⟩)], [], true, 20⟩
      "sha1" "prod" 77).world.refs = []) ∧
    ((⟨[("deployments/prod", "sha1")], [],
        [⟨3, "prod", "sha1", "completed", some "success"⟩],
        [⟨5, "prod", "sha1", "deploy", ⟨3, ["deploy"], [], []⟩⟩],
        [⟨7, "sha1", "deployments/prod", "completed", some "success",
          "suites/77"⟩],
        [("prod", .ok ⟨"prod", "prod", "d", none, .str "push",
          [("deploy", {})]⟩)], [], true, 20⟩ : World).refs =
      [("deployments/prod", "sha1")]) := by
  constructor
  · decide
  · rfl

/-- C8 (amended): when the correlated unit's check run is already
`completed`, the `completed` handler posts no status and leaves the check
runs and deployments unchanged, but it does not leave all external state
unchanged: it releases the environment's lock (deleting the lock reference)
before returning. -/
theorem completed_already_done_frame (w : World) (sha env : String)
    (suite : Nat) (run : WorkflowRun) (dep : Deployment) (chk : CheckRun)
    (hlock : getRef w.refs (reference env) = some sha)
    (hwf : wfGet w sha env = some run)
    (hsm : suiteMatches run suite = true)
    (hst : run.status = "completed")
    (hdep : depGet w sha env = some dep)
    (hchk : findRun w dep.payload.check_run_id = some chk)
    (hcomp : chk.status = "completed") :
    completedHandler w sha env suite =
      ⟨{ w with refs := w.refs.eraseP (fun p => p.1 == reference env) },
        [], none⟩ := by
  obtain ⟨refs, sts, rns, dps, wfl, cfgs, arts, wfe, nid⟩ := w
  have hl : refs.lookup (reference env) = some sha := hlock
  have hens : ensureRepo refs env sha = .ok refs := by
    simp [ensureRepo, lockRepo, createRef, getRef, hl]
  have hunlock : unlockRepo refs env =
      .ok (refs.eraseP (fun p => p.1 == reference env)) := by
    simp [unlockRepo, deleteRef, hl]
  simp only [completedHandler, hens, hwf, hsm, hst, hdep, hchk, hcomp,
    hunlock, Bool.not_true, Bool.false_eq_true, if_false, beq_self_eq_true,
    if_true]

/-- Witness for C8 (amended) at the concrete already-completed world. -/
theorem completed_already_done_frame_witness :
    completedHandler
      ⟨[("deployments/prod", "sha1")], [],
        [⟨3, "prod", "sha1", "completed", some "success"⟩],
        [⟨5, "prod", "sha1", "deploy", ⟨3, ["deploy"], [], []⟩⟩],
        [⟨7, "sha1", "deployments/prod", "completed", some "success",
          "suites/77"⟩],
        [("prod", .ok ⟨"prod", "prod", "d", none, .str "push",
          [("deploy", {})]⟩)], [], true, 20⟩
      "sha1" "prod" 77 =
    ⟨⟨[], [],
        [⟨3, "prod", "sha1", "completed", some "success"⟩],
        [⟨5, "prod", "sha1", "deploy", ⟨3, ["deploy"], [], []⟩⟩],
        [⟨7, "sha1", "deployments/prod", "completed", some "success",
          "suites/77"⟩],
        [("prod", .ok ⟨"prod", "prod", "d", none, .str "push",
          [("deploy", {})]⟩)], [], true, 20⟩, [], none⟩ := by
  rw [completed_already_done_frame
    ⟨[("deployments/prod", "sha1")], [],
      [⟨3, "prod", "sha1", "completed", some "success"⟩],
      [⟨5, "prod", "sha1", "deploy", ⟨3, ["deploy"], [], []⟩⟩],
      [⟨7, "sha1", "deployments/prod", "completed", some "success",
        "suites/77"⟩],
      [("prod", .ok ⟨"prod", "prod", "d", none, .str "push",
        [("deploy", {})]⟩)], [], true, 20⟩
    "sha1" "prod" 77
    ⟨7, "sha1", "deployments/prod", "completed", some "success", "suites/77"⟩
    ⟨5, "prod", "sha1", "deploy", ⟨3, ["deploy"], [], []⟩⟩
    ⟨3, "prod", "sha1", "completed", some "success"⟩
    (by decide) (by decide) (by decide) rfl (by decide) (by decide) rfl]
  decide

end Ploys
